import Mathlib

/-!
# Verification of the `slogplus` text handler

Shallow embedding of `handler.go` from the `slogplus` repository.

The Go code builds each log line into a `[]byte` scratch buffer; we model a
byte sequence as `List Char` (the handler only ever appends Go strings, ASCII
punctuation, decimal digits, and — inside `appendInt` — the NUL byte, modelled
as `Char.ofNat 0`).  Go strings contribute their character sequence via
`String.data`.
-/

namespace Slogplus

/-- A byte buffer (`[]byte` in the source). -/
abbrev Bytes := List Char

/-! ## Values and attributes (`log/slog` data reaching the handler)

`slog.Value` is a closed variant.  The handler renders strings, int64s,
uint64s, bools and groups itself; float64, duration and time values are
rendered by calls into external formatters (`strconv.AppendFloat`,
`time.Duration.String`, `time.Time.Format`), as is the default fallback
(`v.String()`).  Those externally produced texts are carried by the
`external` constructor.  `nilAny` is the zero `slog.Value` (kind `KindAny`,
payload `nil`), which is what `slog.Attr{}` holds; when rendered through the
default branch Go's `v.String()` prints `<nil>`. -/

mutual

inductive Value where
  | str : String → Value
  | int64 : Int → Value
  | uint64 : Nat → Value
  | boolv : Bool → Value
  | external : String → Value
  | nilAny : Value
  | group : AttrList → Value

/-- The ordered entries of a group value (`[]slog.Attr`). -/
inductive AttrList where
  | nil : AttrList
  | cons : String → Value → AttrList → AttrList

end

/-- A top-level `slog.Attr`: key plus value. -/
structure Attr where
  key : String
  val : Value

/-- The zero attribute `slog.Attr{}` — empty key, zero value. -/
def emptyAttr : Attr := ⟨"", Value.nilAny⟩

/-- `a.Equal(slog.Attr{})`: keys equal and values equal; the zero value has
kind `KindAny` with `nil` payload, so only `nilAny` compares equal to it. -/
def isEmptyAttr : Attr → Bool
  | ⟨k, Value.nilAny⟩ => k = ""
  | _ => false

/-! ## Decimal rendering (`strconv.AppendInt` / `strconv.AppendUint`) -/

/-- Minimal decimal digits of a natural number, most significant first
(`strconv` output for non-negative input).  `Nat.toDigits 10 0 = ['0']`. -/
def natChars (n : Nat) : List Char := Nat.toDigits 10 n

/-- `strconv.AppendInt(_, i, 10)`: minus sign for negatives, then the
minimal decimal digits of the absolute value. -/
def intChars (i : Int) : List Char :=
  if i < 0 then '-' :: natChars i.natAbs else natChars i.natAbs

/-! ## Value encoding (`Handler.appendValue`) -/

mutual

/-- `Handler.appendValue`: append the textual form of a value. -/
def appendValue (buf : Bytes) : Value → Bytes
  | .str s => buf ++ s.data
  | .int64 i => buf ++ intChars i
  | .uint64 n => buf ++ natChars n
  | .boolv b => buf ++ (if b then "true".data else "false".data)
  | .external t => buf ++ t.data
  | .nilAny => buf ++ "<nil>".data
  | .group .nil => buf
  | .group (.cons k v rest) =>
      appendGroupRest (appendValue (buf ++ [Char.ofNat 123] ++ k.data ++ ['=']) v) rest
        ++ [Char.ofNat 125]

/-- The `i > 0` iterations of the group loop: space separator before each
further `key=value` entry. -/
def appendGroupRest (buf : Bytes) : AttrList → Bytes
  | .nil => buf
  | .cons k v rest =>
      appendGroupRest (appendValue (buf ++ [' '] ++ k.data ++ ['=']) v) rest

end

/-- The attribute-rewrite hook `Options.ReplaceAttr`. -/
abbrev RewriteHook := List String → Attr → Attr

/-- `Handler.appendAttr`: rewrite hook first (when configured), drop the
zero attribute, else a leading space, the group segments each followed by
`.`, the key, `=`, and the encoded value. -/
def appendAttr (ra : Option RewriteHook) (buf : Bytes) (groups : List String)
    (a : Attr) : Bytes :=
  let a := match ra with
    | some f => f groups a
    | none => a
  if isEmptyAttr a then buf
  else
    let buf := buf ++ [' ']
    let buf := groups.foldl (fun b g => b ++ g.data ++ ['.']) buf
    appendValue (buf ++ a.key.data ++ ['=']) a.val

/-! ## Level names (`slog.Level.String`, standard library) -/

/-- `slog.Level.String()`: base name plus a signed decimal offset when the
level is not exactly one of the four named levels (`fmt.Sprintf("%s%+d")`). -/
def levelString (l : Int) : String :=
  let str := fun (base : String) (d : Int) =>
    if d = 0 then base
    else if d > 0 then base ++ "+" ++ toString d
    else base ++ toString d
  if l < 0 then str "DEBUG" (l + 4)
  else if l < 4 then str "INFO" l
  else if l < 8 then str "WARN" (l - 4)
  else str "ERROR" (l - 8)

/-! ## Fixed-width integer padding (`appendInt` in the source) -/

/-- Go's built-in `copy(buf[dst:dst+cnt], buf[src:src+cnt])` over one backing
array: memmove semantics — the source range is read in full before the
destination range is replaced. -/
def goCopy (buf : Bytes) (dst src cnt : Nat) : Bytes :=
  buf.take dst ++ (buf.drop src).take cnt ++ buf.drop (dst + cnt)

/-- The overwrite loop `for i := 0; i < padding; i++ { buf[start+i] = c }`. -/
def fillRange : Bytes → Nat → Nat → Char → Bytes
  | buf, _, 0, _ => buf
  | buf, s, k + 1, c => fillRange (buf.set s c) (s + 1) k c

/-- `appendInt` from the source: append the decimal form, then — when it is
narrower than `width` — append NUL placeholder bytes, shift the digits right
with `copy`, and overwrite the gap with `'0'`. -/
def appendInt (buf : Bytes) (n : Int) (width : Nat) : Bytes :=
  let start := buf.length
  let buf1 := buf ++ intChars n
  let actual := buf1.length - start
  if actual < width then
    let padding := width - actual
    let buf2 := buf1 ++ List.replicate padding (Char.ofNat 0)
    let cnt := min (buf2.length - (start + padding)) (buf2.length - padding - start)
    let buf3 := goCopy buf2 (start + padding) start cnt
    fillRange buf3 start padding '0'
  else buf1

/-! ## Time (`Handler.appendTime`) -/

/-- A wall-clock instant as the handler reads it: `t.Date()` and `t.Clock()`
components, plus `t.Format` for custom layouts (external `time` library
formatting, modelled as an opaque function of the layout string). -/
structure DateTime where
  year : Int
  month : Int
  day : Int
  hour : Int
  minute : Int
  sec : Int
  format : String → String

/-- `Handler.appendTime`: the default layout is formatted by hand through
`appendInt`; any other layout delegates to `t.Format`. -/
def appendTime (tf : String) (buf : Bytes) (t : DateTime) : Bytes :=
  if tf = "2006/01/02 15:04:05" then
    let buf := appendInt buf t.year 4
    let buf := buf ++ ['/']
    let buf := appendInt buf t.month 2
    let buf := buf ++ ['/']
    let buf := appendInt buf t.day 2
    let buf := buf ++ [' ']
    let buf := appendInt buf t.hour 2
    let buf := buf ++ [':']
    let buf := appendInt buf t.minute 2
    let buf := buf ++ [':']
    appendInt buf t.sec 2
  else buf ++ (t.format tf).data

/-! ## Handler state and records -/

/-- `slog.Leveler`: either a constant `slog.Level` or a `*slog.LevelVar`
cell, read through a store of cell contents at call time. -/
inductive Leveler where
  | fixed : Int → Leveler
  | varCell : Nat → Leveler

/-- `Leveler.Level()`: a constant returns itself; a `LevelVar` reads the
cell's current contents. -/
def Leveler.resolve : Leveler → (Nat → Int) → Int
  | .fixed l, _ => l
  | .varCell c, store => store c

/-- `Options`: level threshold, time layout, source toggle, rewrite hook. -/
structure HOptions where
  level : Option Leveler
  timeFormat : String
  addSource : Bool
  replaceAttr : Option RewriteHook

instance : Inhabited HOptions := ⟨⟨none, "", false, none⟩⟩

/-- The `Handler` struct minus its `sync.Mutex`: options, destination
identity, pool identity, accumulated group names and pre-bound attributes.
The mutex is a by-value field of the struct, so its identity is the struct's
identity; in the heap model below that is the handler's heap index. -/
structure Handler where
  opts : HOptions
  out : Nat
  pool : Nat
  groups : List String
  attrs : List Attr

instance : Inhabited Handler := ⟨⟨default, 0, 0, [], []⟩⟩

/-- One `slog.Record` as `Handle` consumes it: time (`none` models the zero
time), level, resolved source frame (`none` models `r.PC == 0` or an
unresolvable frame), message, and the per-call attributes. -/
structure Record where
  time : Option DateTime
  level : Int
  source : Option (String × Int)
  message : String
  attrs : List Attr

/-- `Handler.Enabled`: threshold defaults to `slog.LevelInfo` (0), else the
leveler is re-resolved against the current store on every call. -/
def enabled (h : Handler) (store : Nat → Int) (level : Int) : Bool :=
  let minLevel := match h.opts.level with
    | none => 0
    | some lv => lv.resolve store
  minLevel ≤ level

/-- Steps 1–7 of `Handler.Handle`: the bytes built into the scratch buffer.
Mirrors the source line by line: optional timestamp plus space, level name
plus space, optional `source=<file>:<line>` plus space, bound attributes
(with the handler's current `groups`), `msg=` and the message, per-call
attributes (same `groups`), newline. -/
def encodeRecord (h : Handler) (r : Record) : Bytes :=
  let buf : Bytes := []
  let buf := if h.opts.timeFormat ≠ "" then
      match r.time with
      | some t => appendTime h.opts.timeFormat buf t ++ [' ']
      | none => buf
    else buf
  let buf := buf ++ (levelString r.level).data ++ [' ']
  let buf := if h.opts.addSource then
      match r.source with
      | some (f, l) =>
          if f ≠ "" then buf ++ "source=".data ++ f.data ++ [':'] ++ intChars l ++ [' ']
          else buf
      | none => buf
    else buf
  let buf := h.attrs.foldl (fun b a => appendAttr h.opts.replaceAttr b h.groups a) buf
  let buf := buf ++ "msg=".data ++ r.message.data
  let buf := r.attrs.foldl (fun b a => appendAttr h.opts.replaceAttr b h.groups a) buf
  buf ++ ['\n']

/-- `Handler.Handle` with the pool state and the destination made explicit:
`pool` is the free list behind `sync.Pool` (`Get` pops or allocates fresh,
`Put` pushes), `w` is `h.out.Write` returning `none` on success or the error.
The deferred `*bufp = buf; h.pool.Put(bufp)` runs on every exit, after the
write, whatever the write returned; the returned error is the write's. -/
def handle (w : Bytes → Option String) (pool : List Bytes) (h : Handler)
    (r : Record) : List Bytes × Option String :=
  let got := match pool with
    | [] => (([] : Bytes), ([] : List Bytes))
    | b :: rest => (b.take 0, rest)
  let buf := encodeRecord h r
  let err := w buf
  (buf :: got.2, err)

/-- The constructor `New`: zero options when the pointer is nil, then the
time layout defaults to `"2006/01/02 15:04:05"` when it is empty.  `out` and
the freshly allocated pool are identities. -/
def newHandler (out pool : Nat) (opts : Option HOptions) : Handler :=
  let o := match opts with
    | some o => o
    | none => { level := none, timeFormat := "", addSource := false, replaceAttr := none }
  let o := if o.timeFormat = "" then { o with timeFormat := "2006/01/02 15:04:05" } else o
  { opts := o, out := out, pool := pool, groups := [], attrs := [] }

/-! ## Derivation (`WithAttrs` / `WithGroup`) over an allocation heap

Go's methods take `*Handler` and allocate a fresh struct for the derived
handler.  We model the heap of allocated handlers as a list and a handler
reference as its index; an allocation appends a cell.  Each struct embeds
its own by-value `sync.Mutex`, so two distinct heap cells hold two distinct
mutexes. -/

/-- `Handler.WithAttrs`: identity on an empty slice, else a fresh struct
copying options, destination, pool and groups, with the bound attributes
extended (`make` + two `copy`s). -/
def withAttrsH (σ : List Handler) (i : Nat) (as : List Attr) :
    List Handler × Nat :=
  if as.length = 0 then (σ, i)
  else
    let h := σ.getD i default
    (σ ++ [{ h with attrs := h.attrs ++ as }], σ.length)

/-- `Handler.WithGroup`: identity on an empty name, else a fresh struct
copying options, destination, pool and attributes, with the group list
extended by the name. -/
def withGroupH (σ : List Handler) (i : Nat) (name : String) :
    List Handler × Nat :=
  if name = "" then (σ, i)
  else
    let h := σ.getD i default
    (σ ++ [{ h with groups := h.groups ++ [name] }], σ.length)

/-! ## Concrete instances used to exhibit behaviour at specific inputs

Each handler below is built through `newHandler` / `withAttrsH` /
`withGroupH`, exactly as a caller of the repository would obtain it. -/

/-- A handler with default options and one bound attribute `service=api`:
`New(out, nil).WithAttrs([service=api])`. -/
def heapC1 : List Handler × Nat :=
  withAttrsH [newHandler 0 0 none] 0 [⟨"service", Value.str "api"⟩]

def hC1 : Handler := heapC1.1.getD heapC1.2 default

/-- An INFO record with zero time, no source, message `hi`, no attributes. -/
def rC1 : Record :=
  { time := none, level := 0, source := none, message := "hi", attrs := [] }

/-- `New(out, nil).WithAttrs([service=api]).WithGroup("request")`. -/
def heapC2 : List Handler × Nat :=
  withGroupH heapC1.1 heapC1.2 "request"

def hC2 : Handler := heapC2.1.getD heapC2.2 default

/-- An INFO record with per-call attributes `method=GET, path=/x`. -/
def rC2 : Record :=
  { time := none, level := 0, source := none, message := "m",
    attrs := [⟨"method", Value.str "GET"⟩, ⟨"path", Value.str "/x"⟩] }

/-- `New(7, nil).WithAttrs([k=v])`: a derivation whose parent writes to
destination 7. -/
def heapC3 : List Handler × Nat :=
  withAttrsH [newHandler 7 0 none] 0 [⟨"k", Value.str "v"⟩]

/-- A default handler, `New(out, nil)`. -/
def hC5 : Handler := newHandler 0 0 none

/-- An INFO record whose only attribute is a group value with zero entries. -/
def rC5 : Record :=
  { time := none, level := 0, source := none, message := "m",
    attrs := [⟨"g", Value.group AttrList.nil⟩] }

/-- A handler with one bound attribute `username=admin`, used for the
rewrite-hook scenario. -/
def hC6 : Handler :=
  { opts := { level := none, timeFormat := "2006/01/02 15:04:05",
              addSource := false, replaceAttr := none },
    out := 0, pool := 0, groups := [], attrs := [⟨"username", Value.str "admin"⟩] }

/-- A login record carrying a `password` attribute to be redacted. -/
def rC6 : Record :=
  { time := none, level := 0, source := none, message := "login",
    attrs := [⟨"password", Value.str "secret123"⟩] }

/-- A hook dropping `password` and additionally rewriting the key `zzz`
(a key that never occurs in `hC6`/`rC6`). -/
def hookF : RewriteHook := fun _ a =>
  if a.key = "password" then emptyAttr
  else if a.key = "zzz" then ⟨"x", Value.str "y"⟩ else a

/-- A hook dropping `password` and nothing else. -/
def hookG : RewriteHook := fun _ a =>
  if a.key = "password" then emptyAttr else a

/-- The drop predicate matching `hookG`. -/
def dropPassword : Attr → Bool := fun a => a.key = "password"

/-- A handler whose threshold is a `LevelVar` cell (cell 0). -/
def hC8 : Handler :=
  { opts := { level := some (Leveler.varCell 0), timeFormat := "2006/01/02 15:04:05",
              addSource := false, replaceAttr := none },
    out := 0, pool := 0, groups := [], attrs := [] }

/-- A concrete instant, `2025/11/14 14:03:04`. -/
def dtC10 : DateTime :=
  { year := 2025, month := 11, day := 14, hour := 14, minute := 3, sec := 4,
    format := fun _ => "" }

/-! ## Proof infrastructure -/

theorem digitChar_ne_nul (m : Nat) : Nat.digitChar m ≠ Char.ofNat 0 := by
  by_cases h : m < 16
  · interval_cases m <;> decide
  · unfold Nat.digitChar
    iterate 16 rw [if_neg (by omega)]
    decide

theorem toDigitsCore_mem (b : Nat) :
    ∀ (fuel n : Nat) (acc : List Char) (c : Char),
      c ∈ Nat.toDigitsCore b fuel n acc →
      c ∈ acc ∨ ∃ m, c = Nat.digitChar m := by
  intro fuel
  induction fuel with
  | zero => intro n acc c hc; exact Or.inl hc
  | succ fuel ih =>
    intro n acc c hc
    unfold Nat.toDigitsCore at hc
    by_cases h0 : n / b = 0
    · simp only [h0, if_pos rfl] at hc
      rcases List.mem_cons.mp hc with h | h
      · exact Or.inr ⟨n % b, h⟩
      · exact Or.inl h
    · simp only [if_neg h0] at hc
      rcases ih (n / b) (Nat.digitChar (n % b) :: acc) c hc with h | h
      · rcases List.mem_cons.mp h with h' | h'
        · exact Or.inr ⟨n % b, h'⟩
        · exact Or.inl h'
      · exact Or.inr h

theorem natChars_ne_nul (n : Nat) : ∀ c ∈ natChars n, c ≠ Char.ofNat 0 := by
  intro c hc
  rcases toDigitsCore_mem 10 (n + 1) n [] c hc with h | ⟨m, hm⟩
  · cases h
  · exact hm ▸ digitChar_ne_nul m

theorem intChars_ne_nul (i : Int) : ∀ c ∈ intChars i, c ≠ Char.ofNat 0 := by
  intro c hc
  unfold intChars at hc
  split at hc
  · rcases List.mem_cons.mp hc with h | h
    · subst h; decide
    · exact natChars_ne_nul _ c h
  · exact natChars_ne_nul _ c hc

theorem fillRange_eq (c : Char) :
    ∀ (k : Nat) (buf : Bytes) (s : Nat), s + k ≤ buf.length →
      fillRange buf s k c = buf.take s ++ List.replicate k c ++ buf.drop (s + k) := by
  intro k
  induction k with
  | zero => intro buf s _; simp [fillRange]
  | succ k ih =>
    intro buf s hlen
    have hs : s < buf.length := by omega
    have hslen : (buf.take s).length = s := List.length_take_of_le (Nat.le_of_lt hs)
    rw [fillRange, ih (buf.set s c) (s + 1) (by rw [List.length_set]; omega)]
    have e1 : (buf.set s c).take (s + 1) = buf.take s ++ [c] := by
      rw [List.set_eq_take_cons_drop c hs, List.take_append_eq_append_take,
        List.take_of_length_le (by rw [hslen]; omega)]
      congr 1
      rw [hslen]
      have h1 : s + 1 - s = 1 := by omega
      rw [h1]
      rfl
    have e2 : (buf.set s c).drop (s + 1 + k) = buf.drop (s + 1 + k) := by
      rw [List.set_eq_take_cons_drop c hs, List.drop_append_eq_append_drop,
        List.drop_of_length_le (by rw [hslen]; omega), hslen, List.nil_append]
      have h1 : s + 1 + k - s = k + 1 := by omega
      rw [h1, List.drop_succ_cons, List.drop_drop]
    rw [e1, e2]
    have h3 : s + 1 + k = s + (k + 1) := by omega
    rw [h3]
    simp [List.replicate_succ, List.append_assoc]

theorem appendInt_eq (buf : Bytes) (n : Int) (w : Nat) :
    appendInt buf n w
      = buf ++ List.replicate (w - (intChars n).length) '0' ++ intChars n := by
  simp only [appendInt]
  set d := intChars n with hd
  have hact : (buf ++ d).length - buf.length = d.length := by
    simp
  rw [hact]
  by_cases hlt : d.length < w
  · simp only [if_pos hlt]
    set p := w - d.length with hp
    have hcnt : min ((buf ++ d ++ List.replicate p (Char.ofNat 0)).length - (buf.length + p))
        ((buf ++ d ++ List.replicate p (Char.ofNat 0)).length - p - buf.length) = d.length := by
      simp; omega
    rw [hcnt]
    unfold goCopy
    have hbuf2 : buf ++ d ++ List.replicate p (Char.ofNat 0)
        = buf ++ (d ++ List.replicate p (Char.ofNat 0)) := by
      rw [List.append_assoc]
    rw [hbuf2]
    have htake : (buf ++ (d ++ List.replicate p (Char.ofNat 0))).take (buf.length + p)
        = buf ++ (d ++ List.replicate p (Char.ofNat 0)).take p := by
      rw [List.take_append_eq_append_take, List.take_of_length_le (by omega)]
      congr 2
      omega
    have hdrop : (buf ++ (d ++ List.replicate p (Char.ofNat 0))).drop buf.length
        = d ++ List.replicate p (Char.ofNat 0) := by
      rw [List.drop_append_eq_append_drop]
      simp
    have hdtake : (d ++ List.replicate p (Char.ofNat 0)).take d.length = d := by
      rw [List.take_append_eq_append_take]
      simp
    have hdropall : (buf ++ (d ++ List.replicate p (Char.ofNat 0))).drop
        (buf.length + p + d.length) = [] := by
      apply List.drop_eq_nil_of_le
      simp
      omega
    rw [htake, hdrop, hdtake, hdropall, List.append_nil]
    have hmidlen : ((d ++ List.replicate p (Char.ofNat 0)).take p).length = p := by
      simp
    have hfill : fillRange (buf ++ (d ++ List.replicate p (Char.ofNat 0)).take p ++ d)
        buf.length p '0'
        = (buf ++ (d ++ List.replicate p (Char.ofNat 0)).take p ++ d).take buf.length
          ++ List.replicate p '0'
          ++ (buf ++ (d ++ List.replicate p (Char.ofNat 0)).take p ++ d).drop
              (buf.length + p) := by
      apply fillRange_eq
      simp
    rw [List.append_assoc] at hfill ⊢
    rw [hfill]
    have ht2 : (buf ++ ((d ++ List.replicate p (Char.ofNat 0)).take p ++ d)).take buf.length
        = buf := by
      rw [List.take_append_eq_append_take]
      simp
    have hd2 : (buf ++ ((d ++ List.replicate p (Char.ofNat 0)).take p ++ d)).drop
        (buf.length + p) = d := by
      rw [List.drop_append_eq_append_drop]
      have : buf.length + p - buf.length = p := by omega
      rw [this, List.drop_of_length_le (by omega), List.nil_append,
        List.drop_append_eq_append_drop]
      rw [hmidlen]
      simp
    rw [ht2, hd2, List.append_assoc]
  · simp only [if_neg hlt]
    have : w - d.length = 0 := by omega
    rw [this]
    simp

mutual

theorem appendValue_hom : ∀ (buf : Bytes) (v : Value),
    appendValue buf v = buf ++ appendValue [] v
  | buf, .str s => by simp [appendValue]
  | buf, .int64 i => by simp [appendValue]
  | buf, .uint64 n => by simp [appendValue]
  | buf, .boolv b => by simp [appendValue]
  | buf, .external t => by simp [appendValue]
  | buf, .nilAny => by simp [appendValue]
  | buf, .group .nil => by simp [appendValue]
  | buf, .group (.cons k v rest) => by
      rw [appendValue, appendValue,
        appendValue_hom (buf ++ [Char.ofNat 123] ++ k.data ++ ['=']) v,
        appendValue_hom ([] ++ [Char.ofNat 123] ++ k.data ++ ['=']) v,
        appendGroupRest_hom (buf ++ [Char.ofNat 123] ++ k.data ++ ['=']
          ++ appendValue [] v) rest,
        appendGroupRest_hom ([] ++ [Char.ofNat 123] ++ k.data ++ ['=']
          ++ appendValue [] v) rest]
      simp [List.append_assoc]

theorem appendGroupRest_hom : ∀ (buf : Bytes) (l : AttrList),
    appendGroupRest buf l = buf ++ appendGroupRest [] l
  | buf, .nil => by simp [appendGroupRest]
  | buf, .cons k v rest => by
      rw [appendGroupRest, appendGroupRest,
        appendValue_hom (buf ++ [' '] ++ k.data ++ ['=']) v,
        appendValue_hom ([] ++ [' '] ++ k.data ++ ['=']) v,
        appendGroupRest_hom (buf ++ [' '] ++ k.data ++ ['='] ++ appendValue [] v) rest,
        appendGroupRest_hom ([] ++ [' '] ++ k.data ++ ['='] ++ appendValue [] v) rest]
      simp [List.append_assoc]

end

theorem dotFold_append (gs : List String) (b c : Bytes) :
    gs.foldl (fun x g => x ++ g.data ++ ['.']) (b ++ c)
      = b ++ gs.foldl (fun x g => x ++ g.data ++ ['.']) c := by
  induction gs generalizing c with
  | nil => rfl
  | cons g gs ih =>
    simp only [List.foldl_cons]
    rw [List.append_assoc, List.append_assoc, ← List.append_assoc c, ih]

theorem appendAttr_hom (ra : Option RewriteHook) (buf : Bytes)
    (gs : List String) (a : Attr) :
    appendAttr ra buf gs a = buf ++ appendAttr ra [] gs a := by
  unfold appendAttr
  cases ra with
  | none =>
    by_cases he : isEmptyAttr a
    · simp [he]
    · simp only [he, Bool.false_eq_true, if_false]
      rw [show buf ++ [' '] = buf ++ ([] ++ [' ']) by simp, dotFold_append,
        appendValue_hom, appendValue_hom (gs.foldl _ ([] ++ [' ']) ++ a.key.data ++ ['='])]
      simp [List.append_assoc]
  | some f =>
    by_cases he : isEmptyAttr (f gs a)
    · simp [he]
    · simp only [he, Bool.false_eq_true, if_false]
      rw [show buf ++ [' '] = buf ++ ([] ++ [' ']) by simp, dotFold_append,
        appendValue_hom,
        appendValue_hom (gs.foldl _ ([] ++ [' ']) ++ (f gs a).key.data ++ ['='])]
      simp [List.append_assoc]

theorem attrFold_append (ra : Option RewriteHook) (gs : List String)
    (l : List Attr) (b c : Bytes) :
    l.foldl (fun x a => appendAttr ra x gs a) (b ++ c)
      = b ++ l.foldl (fun x a => appendAttr ra x gs a) c := by
  induction l generalizing c with
  | nil => rfl
  | cons a l ih =>
    simp only [List.foldl_cons]
    rw [appendAttr_hom ra (b ++ c), appendAttr_hom ra c, List.append_assoc, ih]

theorem attrFold_hom (ra : Option RewriteHook) (gs : List String)
    (l : List Attr) (b : Bytes) :
    l.foldl (fun x a => appendAttr ra x gs a) b
      = b ++ l.foldl (fun x a => appendAttr ra x gs a) [] := by
  rw [show b = b ++ [] by simp, attrFold_append]
  simp

theorem attrFold_congr (f g : RewriteHook) (gs : List String) (l : List Attr)
    (hfg : ∀ a ∈ l, f gs a = g gs a) (b : Bytes) :
    l.foldl (fun x a => appendAttr (some f) x gs a) b
      = l.foldl (fun x a => appendAttr (some g) x gs a) b := by
  induction l generalizing b with
  | nil => rfl
  | cons a l ih =>
    simp only [List.foldl_cons]
    have ha : appendAttr (some f) b gs a = appendAttr (some g) b gs a := by
      simp only [appendAttr]
      rw [hfg a (List.mem_cons_self a l)]
    rw [ha]
    exact ih (fun a' ha' => hfg a' (List.mem_cons_of_mem a ha')) _

theorem attrFold_drop (p : Attr → Bool) (gs : List String) (l : List Attr)
    (b : Bytes) :
    l.foldl (fun x a => appendAttr (some (fun _ a => if p a then emptyAttr else a)) x gs a) b
      = (l.filter (fun a => ! p a)).foldl (fun x a => appendAttr none x gs a) b := by
  induction l generalizing b with
  | nil => rfl
  | cons a l ih =>
    by_cases hp : p a
    · have hdrop : appendAttr (some (fun _ a => if p a then emptyAttr else a)) b gs a
          = b := by
        unfold appendAttr
        simp [hp, emptyAttr, isEmptyAttr]
      simp only [List.foldl_cons, List.filter_cons, hp, Bool.not_true, hdrop]
      exact ih b
    · have hkeep : appendAttr (some (fun _ a => if p a then emptyAttr else a)) b gs a
          = appendAttr none b gs a := by
        unfold appendAttr
        simp [hp]
      simp only [List.foldl_cons, List.filter_cons, hp, Bool.not_false, hkeep]
      exact ih _

theorem attrFold_cons (ra : Option RewriteHook) (gs : List String)
    (l : List Attr) (c : Char) (cs : Bytes) :
    l.foldl (fun x a => appendAttr ra x gs a) (c :: cs)
      = c :: l.foldl (fun x a => appendAttr ra x gs a) cs := by
  have h := attrFold_append ra gs l [c] cs
  simpa using h

theorem encodeRecord_time_split (h : Handler) (r : Record) (t : DateTime)
    (ht : r.time = some t) (htf : h.opts.timeFormat ≠ "") :
    encodeRecord h r
      = appendTime h.opts.timeFormat [] t ++ [' ']
        ++ encodeRecord { h with opts := { h.opts with timeFormat := "" } } r := by
  simp only [encodeRecord, ht]
  rw [if_pos htf, if_neg (show ¬ ("" : String) ≠ "" by simp)]
  cases hAS : h.opts.addSource with
  | false =>
    simp [attrFold_append, attrFold_cons, List.append_assoc]
  | true =>
    cases hS : r.source with
    | none => simp [attrFold_append, attrFold_cons, List.append_assoc]
    | some pr =>
      obtain ⟨f, l⟩ := pr
      by_cases hf : f ≠ ""
      · simp [hf, attrFold_append, attrFold_cons, List.append_assoc]
      · simp [hf, attrFold_append, attrFold_cons, List.append_assoc]

/-! ## Claim theorems -/

/-- C1.  The claimed line format
`[<timestamp> ]<LEVEL> [source=<file>:<line> ]<bound-attrs...> msg=<message>[ <call-attrs...>]\n`
with a single space between the level token and the first bound attribute and
a single space between the last bound attribute and `msg=` does NOT hold: for
the default handler bound with `service=api` and the record
`{level: INFO, time: unset, message: "hi"}`, the code emits
`INFO  service=apimsg=hi\n` — two spaces after the level token and no space
at all before `msg=` — instead of the claimed `INFO service=api msg=hi\n`. -/
theorem line_format_msg_separator_violated :
    encodeRecord hC1 rC1 = "INFO  service=apimsg=hi\n".data
    ∧ encodeRecord hC1 rC1 ≠ "INFO service=api msg=hi\n".data := by
  decide

/-- C2.  Bound attributes are NOT rendered with the group path active at
bind time: the chain `New.WithAttrs([service=api]).WithGroup("request")`
binds `service=api` before any group is entered, yet encoding a record
renders it as `request.service=api` — the group path in effect at encode
time.  (The per-call attributes `method`, `path` are correctly qualified.) -/
theorem bound_attr_uses_encode_time_groups :
    encodeRecord hC2 rC2
      = "INFO  request.service=apimsg=m request.method=GET request.path=/x\n".data
    ∧ "request.service=api".data <:+: encodeRecord hC2 rC2 := by
  decide

/-- C3.  Writes to a shared destination are NOT all serialized by one
mutual-exclusion lock: `WithAttrs` (and `WithGroup`) allocate a fresh
`Handler` struct whose by-value `sync.Mutex` field is a fresh zero-value
mutex.  In the allocation heap, the derived handler occupies a new cell
(mutex identity = cell index), distinct from its parent's, while both
handlers carry the same destination 7. -/
theorem derived_handler_has_fresh_mutex :
    heapC3.1.length = 2
    ∧ heapC3.2 = 1
    ∧ heapC3.2 ≠ 0
    ∧ (heapC3.1.getD heapC3.2 default).out = (heapC3.1.getD 0 default).out := by
  decide

/-- C4.  `Handle` returns the scratch buffer to the pool on every exit path
and propagates the destination's result verbatim: for every writer outcome
the pool regains the buffer, and when the write fails with error `e` the
caller receives exactly `some e`. -/
theorem handle_buffer_return_and_error (w : Bytes → Option String)
    (pool : List Bytes) (h : Handler) (r : Record) :
    (handle w pool h r).1 = encodeRecord h r :: pool.tail
    ∧ (handle w pool h r).2 = w (encodeRecord h r)
    ∧ (∀ e, w (encodeRecord h r) = some e →
        (handle w pool h r) = (encodeRecord h r :: pool.tail, some e)) := by
  refine ⟨?_, ?_, ?_⟩ <;> cases pool with
  | nil => first
    | rfl
    | (intro e he; simp [handle, he])
  | cons b rest => first
    | rfl
    | (intro e he; simp [handle, he])

/-- C4 witness: a concrete failing destination — the buffer is back in the
pool and the error text arrives verbatim. -/
theorem handle_buffer_return_and_error_witness :
    (handle (fun _ => some "disk full") [['z']] hC5 rC5)
      = (encodeRecord hC5 rC5 :: [], some "disk full") :=
  (handle_buffer_return_and_error (fun _ => some "disk full") [['z']] hC5 rC5).2.2
    "disk full" rfl

/-- C5.  An attribute whose value is a group with zero entries does NOT
contribute zero bytes: the default handler encoding a record with attribute
`g={}` emits the dangling fragment ` g=` (leading space, key, `=`), because
`appendAttr` writes the key before `appendValue` elides the empty group.
Only the `{}` braces are suppressed. -/
theorem empty_group_attr_emits_key_bytes :
    encodeRecord hC5 rC5 = "INFO msg=m g=\n".data
    ∧ encodeRecord hC5 rC5 ≠ "INFO msg=m\n".data
    ∧ " g=".data <:+: encodeRecord hC5 rC5 := by
  decide

/-- C7.  Binding an empty attribute slice or entering an empty-named group
returns the same chain reference with the heap untouched; a non-empty bind
or group-entry allocates a fresh cell, leaves every existing cell (in
particular the input chain's) unchanged, and returns a reference distinct
from every existing one. -/
theorem with_ops_identity_and_no_mutation (σ : List Handler) (i : Nat)
    (as : List Attr) (name : String) :
    withAttrsH σ i [] = (σ, i)
    ∧ withGroupH σ i "" = (σ, i)
    ∧ (as ≠ [] → ∀ j, j < σ.length →
        (withAttrsH σ i as).1.getD j default = σ.getD j default
          ∧ (withAttrsH σ i as).2 ≠ j)
    ∧ (name ≠ "" → ∀ j, j < σ.length →
        (withGroupH σ i name).1.getD j default = σ.getD j default
          ∧ (withGroupH σ i name).2 ≠ j) := by
  refine ⟨rfl, rfl, ?_, ?_⟩
  · intro hne j hj
    have hlen : as.length ≠ 0 := fun h => hne (List.length_eq_zero.mp h)
    constructor
    · simp only [withAttrsH, if_neg hlen]
      exact List.getD_append _ _ _ _ hj
    · simp only [withAttrsH, if_neg hlen]
      omega
  · intro hne j hj
    constructor
    · simp only [withGroupH, if_neg hne]
      exact List.getD_append _ _ _ _ hj
    · simp only [withGroupH, if_neg hne]
      omega

/-- C7 witness: instantiated on a one-cell heap with a non-empty bind and a
non-empty group name. -/
theorem with_ops_identity_and_no_mutation_witness :
    withAttrsH [hC5] 0 [] = ([hC5], 0)
    ∧ withGroupH [hC5] 0 "" = ([hC5], 0)
    ∧ (withAttrsH [hC5] 0 [⟨"k", Value.str "v"⟩]).1.getD 0 default = [hC5].getD 0 default
    ∧ (withAttrsH [hC5] 0 [⟨"k", Value.str "v"⟩]).2 ≠ 0
    ∧ (withGroupH [hC5] 0 "g").1.getD 0 default = [hC5].getD 0 default
    ∧ (withGroupH [hC5] 0 "g").2 ≠ 0 := by
  have t := with_ops_identity_and_no_mutation [hC5] 0 [⟨"k", Value.str "v"⟩] "g"
  have ha := t.2.2.1 (by simp) 0 (by simp)
  have hg := t.2.2.2 (by simp) 0 (by simp)
  exact ⟨t.1, t.2.1, ha.1, ha.2, hg.1, hg.2⟩

/-- C8.  `Enabled` re-reads the threshold cell on every call: with the
handler's Leveler a `LevelVar` over cell `c`, the result is the comparison
against the store's current contents of `c`, so a call before and a call
after a store update observe the old and the new threshold respectively. -/
theorem enabled_rereads_threshold (h : Handler) (c : Nat) (store : Nat → Int)
    (l v : Int) (hc : h.opts.level = some (Leveler.varCell c)) :
    enabled h store l = decide (store c ≤ l)
    ∧ enabled h (fun x => if x = c then v else store x) l = decide (v ≤ l) := by
  constructor
  · simp [enabled, hc, Leveler.resolve]
  · simp [enabled, hc, Leveler.resolve]

/-- C8 witness: cell 0 starts at threshold 0 (INFO): level 1 is enabled;
after raising the cell to 4 (WARN) the same level-1 query is refused. -/
theorem enabled_rereads_threshold_witness :
    enabled hC8 (fun _ => 0) 1 = decide ((0 : Int) ≤ 1)
    ∧ enabled hC8 (fun x => if x = 0 then 4 else 0) 1 = decide ((4 : Int) ≤ 1) :=
  enabled_rereads_threshold hC8 0 (fun _ => 0) 1 4 rfl

/-- C9.  For non-negative `n`, the NUL-placeholder-then-overwrite
implementation of `appendInt` is observably equal to direct zero-fill
padding: the result is `buf` followed by `'0'`-padding to `width` followed
by the minimal decimal representation, and none of the appended bytes is
the ASCII NUL placeholder. -/
theorem appendInt_is_zero_fill (buf : Bytes) (n : Int) (w : Nat) (hn : 0 ≤ n) :
    appendInt buf n w
      = buf ++ List.replicate (w - (intChars n).length) '0' ++ intChars n
    ∧ ∀ c ∈ List.replicate (w - (intChars n).length) '0' ++ intChars n,
        c ≠ Char.ofNat 0 := by
  refine ⟨appendInt_eq buf n w, ?_⟩
  intro c hc
  rcases List.mem_append.mp hc with h | h
  · rw [List.eq_of_mem_replicate h]
    decide
  · exact intChars_ne_nul n c h

/-- C9 witness: `appendInt "x" 7 4` pads to `x0007`. -/
theorem appendInt_is_zero_fill_witness :
    (appendInt ['x'] 7 4
        = ['x'] ++ List.replicate (4 - (intChars 7).length) '0' ++ intChars 7
      ∧ ∀ c ∈ List.replicate (4 - (intChars 7).length) '0' ++ intChars 7,
          c ≠ Char.ofNat 0)
    ∧ appendInt ['x'] 7 4 = "x0007".data :=
  ⟨appendInt_is_zero_fill ['x'] 7 4 (by decide), by decide⟩

/-- C6.  The rewrite hook is consulted exactly on the bound and per-call
attributes, each presented with the handler's group path, before encoding:
(1) two hooks that agree on those attributes produce identical lines — so
the line never depends on the hook's behaviour anywhere else, in particular
the message and the level are rendered without ever passing through the
hook; (2) a hook returning the empty-attribute sentinel for the attributes
matched by `p` yields exactly the line of the hook-free handler with those
attributes removed — that attribute is omitted and all others are rendered
unchanged. -/
theorem replace_attr_hook_exact (h : Handler) (r : Record)
    (f g : RewriteHook) (p : Attr → Bool) :
    ((∀ a ∈ h.attrs ++ r.attrs, f h.groups a = g h.groups a) →
      encodeRecord { h with opts := { h.opts with replaceAttr := some f } } r
        = encodeRecord { h with opts := { h.opts with replaceAttr := some g } } r)
    ∧ encodeRecord
        { h with opts :=
            { h.opts with replaceAttr := some (fun _ a => if p a then emptyAttr else a) } } r
        = encodeRecord { h with opts := { h.opts with replaceAttr := none },
                                attrs := h.attrs.filter (fun a => ! p a) }
                       { r with attrs := r.attrs.filter (fun a => ! p a) } := by
  constructor
  · intro hfg
    simp only [encodeRecord]
    rw [attrFold_congr f g h.groups h.attrs
        (fun a ha => hfg a (List.mem_append_left _ ha)),
      attrFold_congr f g h.groups r.attrs
        (fun a ha => hfg a (List.mem_append_right _ ha))]
  · simp only [encodeRecord]
    rw [attrFold_drop p h.groups h.attrs, attrFold_drop p h.groups r.attrs]

/-- C6 witness: dropping `password` removes exactly that attribute, and a
hook differing only on a key that never occurs (`zzz`) changes nothing. -/
theorem replace_attr_hook_exact_witness :
    encodeRecord { hC6 with opts := { hC6.opts with replaceAttr := some hookF } } rC6
      = encodeRecord { hC6 with opts := { hC6.opts with replaceAttr := some hookG } } rC6
    ∧ encodeRecord
        { hC6 with opts :=
            { hC6.opts with replaceAttr := some (fun _ a => if dropPassword a then emptyAttr else a) } } rC6
        = encodeRecord { hC6 with opts := { hC6.opts with replaceAttr := none },
                                  attrs := hC6.attrs.filter (fun a => ! dropPassword a) }
                       { rC6 with attrs := rC6.attrs.filter (fun a => ! dropPassword a) } := by
  have t := replace_attr_hook_exact hC6 rC6 hookF hookG dropPassword
  refine ⟨t.1 ?_, t.2⟩
  intro a ha
  simp only [hC6, rC6, List.cons_append, List.nil_append, List.mem_cons,
    List.not_mem_nil, or_false] at ha
  rcases ha with rfl | rfl <;> rfl

/-- C10.  `New` leaves no way to disable the timestamp through its Options
argument: an empty `TimeFormat` (including the nil-Options case) is replaced
by the default `"2006/01/02 15:04:05"`, so the constructed handler's time
layout is never empty, and every record with a set timestamp opens with the
formatted timestamp — the rest of the line being exactly the encoding the
handler would produce with time output disabled (which is reachable only by
mutating the handler after construction). -/
theorem new_handler_cannot_disable_timestamp (out pid : Nat)
    (opts : Option HOptions) (r : Record) (t : DateTime) (ht : r.time = some t) :
    (newHandler out pid opts).opts.timeFormat
      = (match opts with
         | none => "2006/01/02 15:04:05"
         | some o => if o.timeFormat = "" then "2006/01/02 15:04:05" else o.timeFormat)
    ∧ (newHandler out pid opts).opts.timeFormat ≠ ""
    ∧ encodeRecord (newHandler out pid opts) r
        = appendTime (newHandler out pid opts).opts.timeFormat [] t ++ [' ']
          ++ encodeRecord { newHandler out pid opts with
              opts := { (newHandler out pid opts).opts with timeFormat := "" } } r := by
  have h2 : (newHandler out pid opts).opts.timeFormat ≠ "" := by
    cases opts with
    | none => simp [newHandler]
    | some o =>
      by_cases ho : o.timeFormat = "" <;> simp [newHandler, ho]
  refine ⟨?_, h2, encodeRecord_time_split _ r t ht h2⟩
  cases opts with
  | none => simp [newHandler]
  | some o =>
    by_cases ho : o.timeFormat = "" <;> simp [newHandler, ho]

/-- C10 witness: nil options, a record stamped `2025/11/14 14:03:04`. -/
theorem new_handler_cannot_disable_timestamp_witness :
    ((newHandler 0 0 none).opts.timeFormat = "2006/01/02 15:04:05"
      ∧ (newHandler 0 0 none).opts.timeFormat ≠ ""
      ∧ encodeRecord (newHandler 0 0 none) { rC1 with time := some dtC10 }
          = appendTime (newHandler 0 0 none).opts.timeFormat [] dtC10 ++ [' ']
            ++ encodeRecord { newHandler 0 0 none with
                opts := { (newHandler 0 0 none).opts with timeFormat := "" } }
                { rC1 with time := some dtC10 })
    ∧ encodeRecord (newHandler 0 0 none) { rC1 with time := some dtC10 }
        = "2025/11/14 14:03:04 INFO msg=hi\n".data :=
  ⟨new_handler_cannot_disable_timestamp 0 0 none { rC1 with time := some dtC10 } dtC10 rfl,
   by decide⟩

end Slogplus
